import Mathlib

/-!
# Verification of the astrogoblin-wordle puzzle engine

Shallow embedding of the server's core logic (puzzle loading, guess
evaluation, release gating, asset resolution with memoization) and proofs
of the specification's claims about it.

Strings are modelled as `List Char` (JavaScript strings are character
sequences); the JS `null` entries in the `remaining` array are modelled
as `Option Char`, and fallible parsing returns `Except`.
-/

/-- Per-letter verdict, the `status` field of the JS result objects. -/
inductive Status where
  | correct
  | present
  | absent
deriving DecidableEq

/-- One entry of the JS result array: `{ letter, status }`. -/
structure Mark where
  letter : Char
  status : Status
deriving DecidableEq

/-- JS `Array.prototype.indexOf` on the `remaining` array, whose slots hold a
character or `null` (here `Option Char`): first index whose slot equals the
sought character, `none` when absent (JS `-1`). -/
def indexOfChar (g : Char) : List (Option Char) → Option Nat
  | [] => none
  | o :: rest => if o = some g then some 0 else (indexOfChar g rest).map (· + 1)

/-- Pass 2 of `checkGuess` in `src/unnamed/part_000` (lines 171-180): walk the
guess left to right paired with the pass-1 result slot; a filled slot is kept,
otherwise the first unclaimed `remaining` slot holding the guessed character is
consumed (`present`), else the letter is `absent`. -/
def pass2 : List (Char × Option Mark) → List (Option Char) → List Mark
  | [], _ => []
  | (g, om) :: rest, rem =>
    match om with
    | some m => m :: pass2 rest rem
    | none =>
      match indexOfChar g rem with
      | some idx => ⟨g, Status.present⟩ :: pass2 rest (rem.set idx none)
      | none => ⟨g, Status.absent⟩ :: pass2 rest rem

/-- `checkGuess` from `src/unnamed/part_000` (lines 156-183).  Pass 1 marks
exact matches `correct` and nulls those positions of `remaining`; pass 2 is
`pass2` above. -/
def checkGuess (guess answer : List Char) : List Mark :=
  let z := guess.zip answer
  let result1 : List (Option Mark) :=
    z.map fun p => if p.1 = p.2 then some ⟨p.1, Status.correct⟩ else none
  let remaining : List (Option Char) :=
    z.map fun p => if p.1 = p.2 then none else some p.2
  pass2 (guess.zip result1) remaining

/-- Pass 2 of `checkGuess` in `src/server.js` (lines 119-129); the two source
variants carry textually identical algorithms, transcribed separately so their
agreement can be proved rather than assumed. -/
def pass2Server : List (Char × Option Mark) → List (Option Char) → List Mark
  | [], _ => []
  | (g, om) :: rest, rem =>
    match om with
    | some m => m :: pass2Server rest rem
    | none =>
      match indexOfChar g rem with
      | some idx => ⟨g, Status.present⟩ :: pass2Server rest (rem.set idx none)
      | none => ⟨g, Status.absent⟩ :: pass2Server rest rem

/-- `checkGuess` from `src/server.js` (lines 105-132). -/
def checkGuessServer (guess answer : List Char) : List Mark :=
  let z := guess.zip answer
  let result1 : List (Option Mark) :=
    z.map fun p => if p.1 = p.2 then some ⟨p.1, Status.correct⟩ else none
  let remaining : List (Option Char) :=
    z.map fun p => if p.1 = p.2 then none else some p.2
  pass2Server (guess.zip result1) remaining

/-! ## Specification-side evaluator

Written from the spec's words (§4.3): pass 1 claims every exact-match
position; pass 2 scans the answer left-to-right for the first unclaimed
position holding the guessed letter, claiming it on success.  The claimed
positions are kept as an explicit set of indices rather than a nulled copy of
the answer, so agreement with `checkGuess` is a genuine statement. -/

/-- First position of `answer` (at global index `k` onwards) that is not in
`claimed` and holds the character `g` — the spec's "scan `remaining`
left-to-right for the first unclaimed position holding `guess[i]`". -/
def specFind (g : Char) (claimed : List Nat) : Nat → List Char → Option Nat
  | _, [] => none
  | k, a :: rest =>
    if k ∉ claimed ∧ a = g then some k else specFind g claimed (k + 1) rest

/-- Indices (from `k` up) where guess and answer agree: the positions claimed
by the spec's pass 1. -/
def claimedFrom : Nat → List Char → List Char → List Nat
  | _, [], _ => []
  | _, _ :: _, [] => []
  | k, g :: gs, a :: as =>
    if g = a then k :: claimedFrom (k + 1) gs as else claimedFrom (k + 1) gs as

/-- Spec pass 2 over the remaining (guess, answer) pairs in ascending index
order, threading the claimed-position set. -/
def specPass2 (answer : List Char) : List (Char × Char) → List Nat → List Mark
  | [], _ => []
  | (g, a) :: rest, claimed =>
    if g = a then ⟨g, Status.correct⟩ :: specPass2 answer rest claimed
    else
      match specFind g claimed 0 answer with
      | some j => ⟨g, Status.present⟩ :: specPass2 answer rest (j :: claimed)
      | none => ⟨g, Status.absent⟩ :: specPass2 answer rest claimed

/-- The spec's two-pass evaluator (§4.3). -/
def specEvaluate (guess answer : List Char) : List Mark :=
  specPass2 answer (guess.zip answer) (claimedFrom 0 guess answer)

/-- The answer with claimed positions blanked out, global index `k` onwards:
the shape of the implementation's `remaining` array. -/
def maskFrom : Nat → List Char → List Nat → List (Option Char)
  | _, [], _ => []
  | k, a :: rest, claimed =>
    (if k ∈ claimed then none else some a) :: maskFrom (k + 1) rest claimed

theorem maskFrom_irrel {j k : Nat} (as : List Char) (claimed : List Nat)
    (h : j < k) : maskFrom k as (j :: claimed) = maskFrom k as claimed := by
  induction as generalizing k with
  | nil => rfl
  | cons a rest ih =>
    have hne : k ≠ j := Nat.ne_of_gt h
    simp only [maskFrom, List.mem_cons, ih (Nat.lt_succ_of_lt h)]
    congr 1
    simp [hne]

theorem specFind_mask (g : Char) (as : List Char) (claimed : List Nat)
    (k : Nat) :
    specFind g claimed k as = (indexOfChar g (maskFrom k as claimed)).map (· + k) := by
  induction as generalizing k with
  | nil => rfl
  | cons a rest ih =>
    by_cases hc : k ∈ claimed
    · have hcond : ¬ (k ∉ claimed ∧ a = g) := by simp [hc]
      simp only [specFind, maskFrom, if_neg hcond, if_pos hc, ih (k + 1),
        indexOfChar]
      rw [if_neg (show ¬ ((none : Option Char) = some g) by simp)]
      rw [Option.map_map]
      congr 1
      funext n
      simp only [Function.comp_apply]
      omega
    · by_cases hag : a = g
      · subst hag
        simp [specFind, maskFrom, indexOfChar, hc]
      · have hcond : ¬ (k ∉ claimed ∧ a = g) := by simp [hag]
        simp only [specFind, maskFrom, if_neg hcond, if_neg hc, indexOfChar,
          ih (k + 1)]
        rw [if_neg (show ¬ ((some a : Option Char) = some g) by simp [hag])]
        rw [Option.map_map]
        congr 1
        funext n
        simp only [Function.comp_apply]
        omega

theorem maskFrom_set (as : List Char) (k idx : Nat) (claimed : List Nat) :
    (maskFrom k as claimed).set idx none = maskFrom k as ((k + idx) :: claimed) := by
  induction as generalizing k idx with
  | nil => rfl
  | cons a rest ih =>
    cases idx with
    | zero =>
      simp only [maskFrom, List.set_cons_zero, List.mem_cons]
      rw [maskFrom_irrel rest claimed (by omega)]
      congr 1
      simp
    | succ n =>
      simp only [maskFrom, List.set_cons_succ, List.mem_cons]
      rw [ih (k + 1) n]
      have h1 : k + 1 + n = k + (n + 1) := by omega
      have h2 : ¬ (k = k + (n + 1)) := by omega
      rw [h1]
      congr 1
      simp [h2]

theorem pass2_spec (answer : List Char) (pairs : List (Char × Char))
    (claimed : List Nat) :
    pass2 (pairs.map fun p => (p.1, if p.1 = p.2 then some ⟨p.1, Status.correct⟩ else none))
        (maskFrom 0 answer claimed)
      = specPass2 answer pairs claimed := by
  induction pairs generalizing claimed with
  | nil => rfl
  | cons p rest ih =>
    obtain ⟨g, a⟩ := p
    by_cases hga : g = a
    · simp only [List.map_cons, if_pos hga, pass2, specPass2, ih]
    · simp only [List.map_cons, if_neg hga, pass2, specPass2,
        specFind_mask g answer claimed 0]
      cases hidx : indexOfChar g (maskFrom 0 answer claimed) with
      | none => simp [hidx, ih, hga]
      | some idx =>
        have hset := maskFrom_set answer 0 idx claimed
        simp only [Nat.zero_add] at hset
        simp [hidx, hga, hset, ih]

theorem zip_map_snd (gs : List Char) (as : List Char)
    (f : Char × Char → Option Mark) :
    gs.zip ((gs.zip as).map f) = (gs.zip as).map fun p => (p.1, f p) := by
  induction gs generalizing as with
  | nil => rfl
  | cons g gs ih =>
    cases as with
    | nil => rfl
    | cons a as => simp [List.zip_cons_cons, ih]

theorem claimedFrom_lb {j : Nat} :
    ∀ (gs as : List Char) (k : Nat), j ∈ claimedFrom k gs as → k ≤ j := by
  intro gs
  induction gs with
  | nil => intro as k h; simp [claimedFrom] at h
  | cons g gs ih =>
    intro as k h
    cases as with
    | nil => simp [claimedFrom] at h
    | cons a as =>
      simp only [claimedFrom] at h
      by_cases hga : g = a
      · rw [if_pos hga] at h
        rcases List.mem_cons.mp h with h | h
        · omega
        · have := ih as (k + 1) h; omega
      · rw [if_neg hga] at h
        have := ih as (k + 1) h; omega

theorem remaining_mask :
    ∀ (gs as : List Char) (k : Nat), gs.length = as.length →
      (gs.zip as).map (fun p => if p.1 = p.2 then none else some p.2)
        = maskFrom k as (claimedFrom k gs as) := by
  intro gs
  induction gs with
  | nil =>
    intro as k h
    cases as with
    | nil => rfl
    | cons a as => simp at h
  | cons g gs ih =>
    intro as k h
    cases as with
    | nil => simp at h
    | cons a as =>
      simp only [List.length_cons, Nat.succ.injEq] at h
      by_cases hga : g = a
      · simp only [List.zip_cons_cons, List.map_cons, if_pos hga, claimedFrom,
          maskFrom, List.mem_cons]
        rw [maskFrom_irrel as _ (by omega)]
        rw [ih as (k + 1) h]
        simp
      · have hnot : k ∉ claimedFrom (k + 1) gs as := fun hmem => by
          have := claimedFrom_lb gs as (k + 1) hmem; omega
        simp only [List.zip_cons_cons, List.map_cons, if_neg hga, claimedFrom,
          maskFrom]
        rw [ih as (k + 1) h]
        simp [hnot]

/-- The implementation's evaluator coincides with the spec's claimed-set
formulation on equal-length inputs. -/
theorem checkGuess_eq_spec (guess answer : List Char)
    (h : guess.length = answer.length) :
    checkGuess guess answer = specEvaluate guess answer := by
  show pass2
      (guess.zip ((guess.zip answer).map fun p =>
        if p.1 = p.2 then some ⟨p.1, Status.correct⟩ else none))
      ((guess.zip answer).map fun p => if p.1 = p.2 then none else some p.2)
    = specPass2 answer (guess.zip answer) (claimedFrom 0 guess answer)
  rw [zip_map_snd guess answer]
  rw [remaining_mask guess answer 0 h]
  exact pass2_spec answer (guess.zip answer) (claimedFrom 0 guess answer)

/-- The character class of the regex `/^[A-Z0-9\-]+$/` used by the server for
answers and guesses: code points 65-90 (`A`-`Z`), 48-57 (`0`-`9`) and 45
(`-`). -/
def allowedChar (c : Char) : Bool :=
  (65 ≤ c.toNat && c.toNat ≤ 90) || (48 ≤ c.toNat && c.toNat ≤ 57) || c.toNat == 45

theorem specPass2_length (answer : List Char) (pairs : List (Char × Char))
    (claimed : List Nat) :
    (specPass2 answer pairs claimed).length = pairs.length := by
  induction pairs generalizing claimed with
  | nil => rfl
  | cons p rest ih =>
    obtain ⟨g, a⟩ := p
    by_cases hga : g = a
    · simp [specPass2, if_pos hga, ih]
    · simp only [specPass2, if_neg hga]
      cases specFind g claimed 0 answer with
      | some j => simp [ih]
      | none => simp [ih]

theorem specPass2_letters (answer : List Char) (pairs : List (Char × Char))
    (claimed : List Nat) :
    (specPass2 answer pairs claimed).map Mark.letter = pairs.map Prod.fst := by
  induction pairs generalizing claimed with
  | nil => rfl
  | cons p rest ih =>
    obtain ⟨g, a⟩ := p
    by_cases hga : g = a
    · simp [specPass2, if_pos hga, ih]
    · simp only [specPass2, if_neg hga]
      cases specFind g claimed 0 answer with
      | some j => simp [ih]
      | none => simp [ih]

theorem specPass2_count (answer : List Char) (pairs : List (Char × Char))
    (claimed : List Nat) :
    (specPass2 answer pairs claimed).countP (fun m => m.status == Status.correct)
      = pairs.countP (fun p => p.1 == p.2) := by
  induction pairs generalizing claimed with
  | nil => rfl
  | cons p rest ih =>
    obtain ⟨g, a⟩ := p
    by_cases hga : g = a
    · simp [specPass2, if_pos hga, List.countP_cons, ih, hga]
    · simp only [specPass2, if_neg hga]
      cases specFind g claimed 0 answer with
      | some j => simp [List.countP_cons, ih, hga]
      | none => simp [List.countP_cons, ih, hga]

/-- C1.  On 5-character inputs over the allowed charset, `checkGuess` marks an
index `correct` exactly when guess and answer agree there, and settles the
remaining indices in ascending order by claiming the leftmost unclaimed answer
position holding the guessed letter (`present`) or, failing that, marking
`absent` — i.e. it coincides with the spec's claimed-set evaluator — and on
guess `LOLLY` against answer `ALLOY` it yields
`[present(L), present(O), correct(L), absent(L), correct(Y)]`. -/
theorem astro_c1 :
    (∀ guess answer : List Char, guess.length = 5 → answer.length = 5 →
      guess.all allowedChar = true → answer.all allowedChar = true →
      checkGuess guess answer = specEvaluate guess answer)
    ∧ checkGuess "LOLLY".toList "ALLOY".toList =
        [⟨'L', Status.present⟩, ⟨'O', Status.present⟩, ⟨'L', Status.correct⟩,
         ⟨'L', Status.absent⟩, ⟨'Y', Status.correct⟩] :=
  ⟨fun guess answer hg ha _ _ => checkGuess_eq_spec guess answer (hg.trans ha.symm),
   by decide⟩

/-- Witness for C1: the equivalence applied at the concrete duplicate-letter
example. -/
theorem astro_c1_witness :
    checkGuess "LOLLY".toList "ALLOY".toList
      = specEvaluate "LOLLY".toList "ALLOY".toList :=
  astro_c1.1 "LOLLY".toList "ALLOY".toList (by decide) (by decide) (by decide)
    (by decide)

/-- C2.  On 5-character inputs over the allowed charset `checkGuess` returns
exactly 5 marks; each mark's letter is the guess character at that index; each
status is `correct`, `present` or `absent`; and the number of `correct` marks
is the number of index-aligned equal characters. -/
theorem astro_c2 :
    ∀ guess answer : List Char, guess.length = 5 → answer.length = 5 →
      guess.all allowedChar = true → answer.all allowedChar = true →
      (checkGuess guess answer).length = 5
      ∧ (checkGuess guess answer).map Mark.letter = guess
      ∧ (∀ m ∈ checkGuess guess answer,
          m.status = Status.correct ∨ m.status = Status.present ∨
            m.status = Status.absent)
      ∧ (checkGuess guess answer).countP (fun m => m.status == Status.correct)
          = (guess.zip answer).countP (fun p => p.1 == p.2) := by
  intro guess answer hg ha _ _
  rw [checkGuess_eq_spec guess answer (hg.trans ha.symm)]
  refine ⟨?_, ?_, ?_, ?_⟩
  · rw [show specEvaluate guess answer
        = specPass2 answer (guess.zip answer) (claimedFrom 0 guess answer) from rfl]
    rw [specPass2_length]
    simp [List.length_zip, hg, ha]
  · rw [show specEvaluate guess answer
        = specPass2 answer (guess.zip answer) (claimedFrom 0 guess answer) from rfl]
    rw [specPass2_letters]
    exact List.map_fst_zip guess answer (by omega)
  · intro m _
    cases h : m.status
    · exact Or.inl rfl
    · exact Or.inr (Or.inl rfl)
    · exact Or.inr (Or.inr rfl)
  · rw [show specEvaluate guess answer
        = specPass2 answer (guess.zip answer) (claimedFrom 0 guess answer) from rfl]
    exact specPass2_count answer (guess.zip answer) (claimedFrom 0 guess answer)

/-- Witness for C2: the shape facts evaluated at the concrete example. -/
theorem astro_c2_witness :
    (checkGuess "LOLLY".toList "ALLOY".toList).length = 5
    ∧ (checkGuess "LOLLY".toList "ALLOY".toList).countP
        (fun m => m.status == Status.correct)
      = ("LOLLY".toList.zip "ALLOY".toList).countP (fun p => p.1 == p.2) := by
  have h := astro_c2 "LOLLY".toList "ALLOY".toList (by decide) (by decide)
    (by decide) (by decide)
  exact ⟨h.1, h.2.2.2⟩

theorem pass2Server_eq_pass2 :
    ∀ (ps : List (Char × Option Mark)) (rem : List (Option Char)),
      pass2Server ps rem = pass2 ps rem := by
  intro ps
  induction ps with
  | nil => intro rem; rfl
  | cons p rest ih =>
    intro rem
    obtain ⟨g, om⟩ := p
    cases om with
    | some m => simp [pass2Server, pass2, ih]
    | none =>
      cases h : indexOfChar g rem with
      | some idx => simp [pass2Server, pass2, h, ih]
      | none => simp [pass2Server, pass2, h, ih]

/-- C10.  The guess evaluators transcribed from `src/server.js` and from
`src/unnamed/part_000` are extensionally equal — in particular they agree on
every pair of 5-character strings. -/
theorem astro_c10 :
    ∀ guess answer : List Char,
      checkGuessServer guess answer = checkGuess guess answer := by
  intro guess answer
  unfold checkGuessServer checkGuess
  exact pass2Server_eq_pass2 _ _

/-! ## Puzzle catalog loading

`loadPuzzles` from `src/unnamed/part_000` (lines 26-69): each configuration
entry is a pair of the raw 8-digit date key (from the `PUZZLE_<YYYYMMDD>` env
var name) and the pipe-delimited value.  JS strings are `List Char`; the
JS object keyed by the dashed date string is an insert-or-overwrite
association list. -/

/-- JS `String.prototype.trim`: strip leading and trailing whitespace. -/
def trimL (l : List Char) : List Char :=
  ((l.dropWhile Char.isWhitespace).reverse.dropWhile Char.isWhitespace).reverse

/-- The test `/^[A-Z0-9\-]+$/.test s`: nonempty and only allowed characters. -/
def charsetOk (l : List Char) : Bool :=
  !l.isEmpty && l.all allowedChar

/-- JS `String.prototype.split` on a single separator character. -/
def splitSep (sep : Char) : List Char → List (List Char)
  | [] => [[]]
  | c :: rest =>
    if c = sep then [] :: splitSep sep rest
    else
      match splitSep sep rest with
      | [] => [[c]]
      | h :: t => (c :: h) :: t

/-- `YYYYMMDD` → `YYYY-MM-DD` (the slices at lines 33-34 of the source). -/
def dashed (d : List Char) : List Char :=
  d.take 4 ++ '-' :: ((d.drop 4).take 2 ++ '-' :: (d.drop 6).take 2)

/-- `sounds[0]`, truthy-checked (line 49): empty string and absence give no
sound. -/
def firstSound : List (List Char) → Option (List Char)
  | [] => none
  | s :: _ => if s.isEmpty then none else some s

/-- `sounds[1]`, truthy-checked (line 50). -/
def secondSound : List (List Char) → Option (List Char)
  | _ :: s :: _ => if s.isEmpty then none else some s
  | _ => none

/-- The clue part of the text after the first pipe (lines 43-53). -/
def clueOf (rest : List Char) : List Char :=
  match rest.findIdx? (· == '|') with
  | some si => trimL (rest.take si)
  | none => trimL rest

/-- The optional win sound parsed from the text after the second pipe. -/
def winSoundOf (rest : List Char) : Option (List Char) :=
  match rest.findIdx? (· == '|') with
  | some si => firstSound ((splitSep ',' (trimL (rest.drop (si + 1)))).map trimL)
  | none => none

/-- The optional lose sound parsed from the text after the second pipe. -/
def loseSoundOf (rest : List Char) : Option (List Char) :=
  match rest.findIdx? (· == '|') with
  | some si => secondSound ((splitSep ',' (trimL (rest.drop (si + 1)))).map trimL)
  | none => none

/-- A loaded puzzle record (line 64 of the source). -/
structure PuzzleRec where
  id : List Char
  answer : List Char
  clue : List Char
  date : List Char
  altWinSound : Option (List Char)
  altLoseSound : Option (List Char)
deriving DecidableEq

/-- The three load-time rejection reasons, in the order the source checks
them (lines 37, 55, 59). -/
inductive RejectReason where
  | missingDelimiter
  | badLength
  | badCharset
deriving DecidableEq

/-- One iteration of the `loadPuzzles` loop: reject on missing delimiter,
then on answer length, then on answer charset; otherwise build the record. -/
def parseEntry (e : List Char × List Char) : Except RejectReason PuzzleRec :=
  match e.2.findIdx? (· == '|') with
  | none => .error .missingDelimiter
  | some pi =>
    if (trimL ((e.2.take pi).map Char.toUpper)).length ≠ 5 then
      .error .badLength
    else if charsetOk (trimL ((e.2.take pi).map Char.toUpper)) then
      .ok ⟨e.1, trimL ((e.2.take pi).map Char.toUpper),
           clueOf (e.2.drop (pi + 1)), dashed e.1,
           winSoundOf (e.2.drop (pi + 1)), loseSoundOf (e.2.drop (pi + 1))⟩
    else .error .badCharset

/-- The uppercased, trimmed answer text of an entry value (its part before
the first pipe), used to state the validation claims. -/
def ansOf (v : List Char) : List Char :=
  match v.findIdx? (· == '|') with
  | none => []
  | some pi => trimL ((v.take pi).map Char.toUpper)

/-- `puzzleMap[dateStr] = record`: JS object insertion keeps the original
position of an existing key and appends a fresh key. -/
def insertOv (k : List Char) (r : PuzzleRec) :
    List (List Char × PuzzleRec) → List (List Char × PuzzleRec)
  | [] => [(k, r)]
  | (k', r') :: t => if k' = k then (k, r) :: t else (k', r') :: insertOv k r t

/-- The `loadPuzzles` loop over the entries, threading the map. -/
def loadAux (acc : List (List Char × PuzzleRec)) :
    List (List Char × List Char) → List (List Char × PuzzleRec)
  | [] => acc
  | e :: t =>
    match parseEntry e with
    | .error _ => loadAux acc t
    | .ok r => loadAux (insertOv (dashed e.1) r acc) t

/-- `loadPuzzles` (lines 26-69): the catalog built from the entries. -/
def loadPuzzles (entries : List (List Char × List Char)) :
    List (List Char × PuzzleRec) :=
  loadAux [] entries

/-- `Object.values(PUZZLES)`. -/
def catalogValues (entries : List (List Char × List Char)) : List PuzzleRec :=
  (loadPuzzles entries).map Prod.snd

/-- Whether an entry survives validation. -/
def accepted (e : List Char × List Char) : Bool :=
  match parseEntry e with
  | .ok _ => true
  | .error _ => false

theorem allowedChar_facts {c : Char} (h : allowedChar c = true) :
    (65 ≤ c.toNat ∧ c.toNat ≤ 90) ∨ (48 ≤ c.toNat ∧ c.toNat ≤ 57) ∨
      c.toNat = 45 := by
  simp only [allowedChar, Bool.or_eq_true, Bool.and_eq_true, decide_eq_true_eq,
    beq_iff_eq] at h
  tauto

theorem allowedChar_toUpper {c : Char} (h : allowedChar c = true) :
    Char.toUpper c = c := by
  have hfacts := allowedChar_facts h
  have hdef : Char.toUpper c
      = if c.toNat ≥ 97 ∧ c.toNat ≤ 122 then Char.ofNat (c.toNat - 32) else c := rfl
  rw [hdef, if_neg (by omega)]

theorem allowedChar_not_ws {c : Char} (h : allowedChar c = true) :
    c.isWhitespace = false := by
  by_contra hne
  have hws : c.isWhitespace = true := by
    cases hcase : c.isWhitespace
    · exact absurd hcase hne
    · rfl
  have : c = ' ' ∨ c = '\t' ∨ c = '\r' ∨ c = '\n' := by
    simpa [Char.isWhitespace, Bool.or_eq_true, decide_eq_true_eq, or_assoc]
      using hws
  rcases this with rfl | rfl | rfl | rfl <;> exact absurd h (by decide)

theorem trimL_eq_self {l : List Char} (h : ∀ c ∈ l, c.isWhitespace = false) :
    trimL l = l := by
  have h1 : l.dropWhile Char.isWhitespace = l := by
    cases l with
    | nil => rfl
    | cons a t => simp [List.dropWhile_cons, h a (List.mem_cons_self a t)]
  have h2 : l.reverse.dropWhile Char.isWhitespace = l.reverse := by
    cases hr : l.reverse with
    | nil => rfl
    | cons a t =>
      have ha : a ∈ l := by
        have : a ∈ l.reverse := by rw [hr]; exact List.mem_cons_self a t
        simpa using this
      simp [List.dropWhile_cons, h a ha]
  unfold trimL
  rw [h1, h2, List.reverse_reverse]

theorem parseEntry_none_eq {e : List Char × List Char}
    (hf : e.2.findIdx? (· == '|') = none) :
    parseEntry e = .error .missingDelimiter := by
  unfold parseEntry
  rw [hf]

theorem parseEntry_some_eq {e : List Char × List Char} {pi : Nat}
    (hf : e.2.findIdx? (· == '|') = some pi) :
    parseEntry e =
      if (trimL ((e.2.take pi).map Char.toUpper)).length ≠ 5 then
        .error .badLength
      else if charsetOk (trimL ((e.2.take pi).map Char.toUpper)) then
        .ok ⟨e.1, trimL ((e.2.take pi).map Char.toUpper),
             clueOf (e.2.drop (pi + 1)), dashed e.1,
             winSoundOf (e.2.drop (pi + 1)), loseSoundOf (e.2.drop (pi + 1))⟩
      else .error .badCharset := by
  unfold parseEntry
  rw [hf]

theorem parseEntry_ok_answer {e : List Char × List Char} {r : PuzzleRec}
    (h : parseEntry e = .ok r) :
    r.answer.length = 5 ∧ r.answer.all allowedChar = true ∧
      r.answer.map Char.toUpper = r.answer := by
  cases hf : e.2.findIdx? (· == '|') with
  | none => rw [parseEntry_none_eq hf] at h; exact absurd h (by simp)
  | some pi =>
    rw [parseEntry_some_eq hf] at h
    by_cases hlen : (trimL ((e.2.take pi).map Char.toUpper)).length ≠ 5
    · rw [if_pos hlen] at h; exact absurd h (by simp)
    · rw [if_neg hlen] at h
      by_cases hcs : charsetOk (trimL ((e.2.take pi).map Char.toUpper)) = true
      · rw [if_pos hcs] at h
        injection h with h'
        subst h'
        simp only [not_not] at hlen
        have hcs' := hcs
        simp only [charsetOk, Bool.and_eq_true] at hcs'
        obtain ⟨-, hall⟩ := hcs'
        refine ⟨hlen, hall, ?_⟩
        have hmem := List.all_eq_true.mp hall
        calc (trimL ((e.2.take pi).map Char.toUpper)).map Char.toUpper
            = (trimL ((e.2.take pi).map Char.toUpper)).map id :=
              List.map_congr_left fun a ha => allowedChar_toUpper (hmem a ha)
          _ = _ := List.map_id _
      · rw [if_neg hcs] at h; exact absurd h (by simp)

theorem insertOv_mem {k : List Char} {r : PuzzleRec}
    {l : List (List Char × PuzzleRec)} {x : List Char × PuzzleRec}
    (h : x ∈ insertOv k r l) : x = (k, r) ∨ x ∈ l := by
  induction l with
  | nil => simpa [insertOv] using h
  | cons p t ih =>
    obtain ⟨k', r'⟩ := p
    by_cases hk : k' = k
    · simp only [insertOv, if_pos hk] at h
      rcases List.mem_cons.mp h with h | h
      · exact Or.inl h
      · exact Or.inr (List.mem_cons_of_mem _ h)
    · simp only [insertOv, if_neg hk] at h
      rcases List.mem_cons.mp h with h | h
      · exact Or.inr (h ▸ List.mem_cons_self _ _)
      · rcases ih h with h | h
        · exact Or.inl h
        · exact Or.inr (List.mem_cons_of_mem _ h)

theorem loadAux_mem :
    ∀ (entries : List (List Char × List Char)) (acc : List (List Char × PuzzleRec))
      (x : List Char × PuzzleRec), x ∈ loadAux acc entries →
      x ∈ acc ∨ ∃ e ∈ entries, parseEntry e = .ok x.2 := by
  intro entries
  induction entries with
  | nil => intro acc x h; exact Or.inl h
  | cons e t ih =>
    intro acc x h
    unfold loadAux at h
    cases hp : parseEntry e with
    | error msg =>
      rw [hp] at h
      rcases ih acc x h with h | ⟨e', he', hok⟩
      · exact Or.inl h
      · exact Or.inr ⟨e', List.mem_cons_of_mem _ he', hok⟩
    | ok r =>
      rw [hp] at h
      rcases ih _ x h with h | ⟨e', he', hok⟩
      · rcases insertOv_mem h with h | h
        · refine Or.inr ⟨e, List.mem_cons_self _ _, ?_⟩
          rw [hp, h]
        · exact Or.inl h
      · exact Or.inr ⟨e', List.mem_cons_of_mem _ he', hok⟩

theorem catalog_answer_inv {entries : List (List Char × List Char)}
    {r : PuzzleRec} (h : r ∈ catalogValues entries) :
    r.answer.length = 5 ∧ r.answer.all allowedChar = true ∧
      r.answer.map Char.toUpper = r.answer := by
  obtain ⟨⟨k, r'⟩, hmem, heq⟩ := List.mem_map.mp h
  rcases loadAux_mem entries [] (k, r') hmem with hacc | ⟨e, _, hok⟩
  · exact absurd hacc (List.not_mem_nil _)
  · exact heq ▸ parseEntry_ok_answer hok

theorem ansOf_some_eq {v : List Char} {pi : Nat}
    (hf : v.findIdx? (· == '|') = some pi) :
    ansOf v = trimL ((v.take pi).map Char.toUpper) := by
  unfold ansOf
  rw [hf]

theorem findIdx_pipe_exists {v : List Char} (h : '|' ∈ v) :
    ∃ pi, v.findIdx? (· == '|') = some pi := by
  cases hf : v.findIdx? (· == '|') with
  | some pi => exact ⟨pi, rfl⟩
  | none => exact absurd (List.findIdx?_eq_none_iff.mp hf '|' h) (by simp)

theorem insertOv_fst_mem {k x : List Char} {r : PuzzleRec}
    {l : List (List Char × PuzzleRec)} :
    x ∈ (insertOv k r l).map Prod.fst ↔ x ∈ l.map Prod.fst ∨ x = k := by
  induction l with
  | nil => simp [insertOv]
  | cons p t ih =>
    obtain ⟨k', r'⟩ := p
    have hstep : insertOv k r ((k', r') :: t)
        = if k' = k then (k, r) :: t else (k', r') :: insertOv k r t := rfl
    by_cases hk : k' = k
    · rw [hstep, if_pos hk]
      simp only [List.map_cons, List.mem_cons, hk]
      tauto
    · rw [hstep, if_neg hk]
      simp only [List.map_cons, List.mem_cons, ih]
      tauto

theorem insertOv_length_notmem {k : List Char} {r : PuzzleRec}
    {l : List (List Char × PuzzleRec)} (h : k ∉ l.map Prod.fst) :
    (insertOv k r l).length = l.length + 1 := by
  induction l with
  | nil => rfl
  | cons p t ih =>
    obtain ⟨k', r'⟩ := p
    simp only [List.map_cons, List.mem_cons] at h
    push_neg at h
    obtain ⟨hk, ht⟩ := h
    have hstep : insertOv k r ((k', r') :: t)
        = if k' = k then (k, r) :: t else (k', r') :: insertOv k r t := rfl
    rw [hstep, if_neg (show ¬ (k' = k) from fun hkk => hk hkk.symm)]
    simp [List.length_cons, ih ht]

theorem loadAux_cons_error {e : List Char × List Char}
    {msg : RejectReason} {acc : List (List Char × PuzzleRec)}
    {t : List (List Char × List Char)} (hp : parseEntry e = .error msg) :
    loadAux acc (e :: t) = loadAux acc t := by
  show (match parseEntry e with
    | .error _ => loadAux acc t
    | .ok r => loadAux (insertOv (dashed e.1) r acc) t) = loadAux acc t
  rw [hp]

theorem loadAux_cons_ok {e : List Char × List Char} {r : PuzzleRec}
    {acc : List (List Char × PuzzleRec)} {t : List (List Char × List Char)}
    (hp : parseEntry e = .ok r) :
    loadAux acc (e :: t) = loadAux (insertOv (dashed e.1) r acc) t := by
  show (match parseEntry e with
    | .error _ => loadAux acc t
    | .ok r => loadAux (insertOv (dashed e.1) r acc) t)
    = loadAux (insertOv (dashed e.1) r acc) t
  rw [hp]

theorem loadAux_length :
    ∀ (entries : List (List Char × List Char))
      (acc : List (List Char × PuzzleRec)),
      (entries.map (fun e => dashed e.1)).Nodup →
      (∀ e ∈ entries, dashed e.1 ∉ acc.map Prod.fst) →
      (loadAux acc entries).length = acc.length + entries.countP accepted := by
  intro entries
  induction entries with
  | nil => intro acc _ _; simp [loadAux]
  | cons e t ih =>
    intro acc hnod hdisj
    simp only [List.map_cons, List.nodup_cons] at hnod
    obtain ⟨hhead, htail⟩ := hnod
    cases hp : parseEntry e with
    | error msg =>
      have hacc : accepted e = false := by simp [accepted, hp]
      rw [loadAux_cons_error hp,
        List.countP_cons_of_neg accepted t
          (show ¬ accepted e = true by simp [hacc])]
      exact ih acc htail (fun e' he' => hdisj e' (List.mem_cons_of_mem _ he'))
    | ok r =>
      have hacc : accepted e = true := by simp [accepted, hp]
      have hknot : dashed e.1 ∉ acc.map Prod.fst :=
        hdisj e (List.mem_cons_self _ _)
      have hdisj' : ∀ e' ∈ t,
          dashed e'.1 ∉ (insertOv (dashed e.1) r acc).map Prod.fst := by
        intro e' he' hmem
        rcases insertOv_fst_mem.mp hmem with hmem | heq
        · exact hdisj e' (List.mem_cons_of_mem _ he') hmem
        · exact hhead (heq ▸ List.mem_map_of_mem (fun e => dashed e.1) he')
      have := ih (insertOv (dashed e.1) r acc) htail hdisj'
      rw [loadAux_cons_ok hp,
        List.countP_cons_of_pos accepted t (show accepted e = true from hacc),
        this, insertOv_length_notmem hknot]
      omega

/-- C5.  Entry validation checks missing delimiter, then answer length, then
answer charset, in that order; every stored record's answer is uppercase,
length 5 and charset-restricted; and with distinct date keys the catalog size
is exactly the number of surviving entries. -/
theorem astro_c5 :
    (∀ d v : List Char,
      (parseEntry (d, v) = .error .missingDelimiter ↔ '|' ∉ v))
    ∧ (∀ d v : List Char, '|' ∈ v →
        (parseEntry (d, v) = .error .badLength ↔ (ansOf v).length ≠ 5))
    ∧ (∀ d v : List Char, '|' ∈ v → (ansOf v).length = 5 →
        (parseEntry (d, v) = .error .badCharset ↔ charsetOk (ansOf v) = false))
    ∧ (∀ (entries : List (List Char × List Char)) (r : PuzzleRec),
        r ∈ catalogValues entries →
        r.answer.length = 5 ∧ r.answer.all allowedChar = true ∧
          r.answer.map Char.toUpper = r.answer)
    ∧ (∀ entries : List (List Char × List Char),
        (entries.map (fun e => dashed e.1)).Nodup →
        (loadPuzzles entries).length = entries.countP accepted) := by
  refine ⟨?_, ?_, ?_, fun _ _ h => catalog_answer_inv h, ?_⟩
  · intro d v
    constructor
    · intro h hmem
      obtain ⟨pi, hf⟩ := findIdx_pipe_exists hmem
      rw [parseEntry_some_eq hf] at h
      by_cases hlen : (trimL ((v.take pi).map Char.toUpper)).length ≠ 5
      · rw [if_pos hlen] at h; simp at h
      · rw [if_neg hlen] at h
        by_cases hcs : charsetOk (trimL ((v.take pi).map Char.toUpper)) = true
        · rw [if_pos hcs] at h; simp at h
        · rw [if_neg hcs] at h; simp at h
    · intro hnot
      have hf : v.findIdx? (· == '|') = none :=
        List.findIdx?_eq_none_iff.mpr fun x hx => by
          have hne : x ≠ '|' := fun hEq => hnot (hEq ▸ hx)
          simpa using hne
      exact parseEntry_none_eq hf
  · intro d v hmem
    obtain ⟨pi, hf⟩ := findIdx_pipe_exists hmem
    rw [parseEntry_some_eq hf, ansOf_some_eq hf]
    constructor
    · intro h
      by_cases hlen : (trimL ((v.take pi).map Char.toUpper)).length ≠ 5
      · exact hlen
      · rw [if_neg hlen] at h
        by_cases hcs : charsetOk (trimL ((v.take pi).map Char.toUpper)) = true
        · rw [if_pos hcs] at h; simp at h
        · rw [if_neg hcs] at h; simp at h
    · intro hlen
      rw [if_pos hlen]
  · intro d v hmem hlen5
    obtain ⟨pi, hf⟩ := findIdx_pipe_exists hmem
    rw [ansOf_some_eq hf] at hlen5 ⊢
    rw [parseEntry_some_eq hf]
    rw [if_neg (by omega : ¬ (trimL ((v.take pi).map Char.toUpper)).length ≠ 5)]
    cases hb : charsetOk (trimL ((v.take pi).map Char.toUpper))
    · simp
    · simp
  · intro entries hnod
    unfold loadPuzzles
    have := loadAux_length entries [] hnod (by simp)
    simpa using this

/-- Witness for C5: the validation facts and the size identity applied to a
concrete run of three entries, of which only the first survives. -/
theorem astro_c5_witness :
    parseEntry ("20240101".toList, "nopipe".toList)
        = .error .missingDelimiter
    ∧ (loadPuzzles
        [("20240101".toList, "VADER|dark lord".toList),
         ("20240102".toList, "TOOLONG|oops".toList),
         ("20240103".toList, "nodelim".toList)]).length
      = List.countP accepted
          [("20240101".toList, "VADER|dark lord".toList),
           ("20240102".toList, "TOOLONG|oops".toList),
           ("20240103".toList, "nodelim".toList)] := by
  constructor
  · exact (astro_c5.1 "20240101".toList "nopipe".toList).mpr (by decide)
  · exact astro_c5.2.2.2.2
      [("20240101".toList, "VADER|dark lord".toList),
       ("20240102".toList, "TOOLONG|oops".toList),
       ("20240103".toList, "nodelim".toList)] (by decide)

/-! ## HTTP endpoints over the catalog

The request handlers of `src/unnamed/part_000` are pure functions of the
catalog values (`Object.values(PUZZLES)`), the current Eastern date string
and the request data.  JS string comparison `a > b` is lexicographic by code
unit, modelled by `strLt`. -/

/-- JS `<` on strings: lexicographic, a strict prefix is smaller. -/
def strLt : List Char → List Char → Bool
  | [], [] => false
  | [], _ :: _ => true
  | _ :: _, [] => false
  | a :: as, b :: bs => if a < b then true else if b < a then false else strLt as bs

/-- `guess.toUpperCase().trim()` (line 258 of the source). -/
def normGuess (g : List Char) : List Char :=
  trimL (g.map Char.toUpper)

/-- Negation of the line-259 rejection test: length 5 and allowed charset. -/
def guessShapeOk (ug : List Char) : Bool :=
  ug.length == 5 && charsetOk ug

/-- Responses of `POST /api/guess`, tagged by the source's branches. -/
inductive GuessResp where
  | missingField
  | invalidGuess
  | unknownWord
  | puzzleNotFound
  | notAvailable
  | result (marks : List Mark) (correct : Bool)
deriving DecidableEq

/-- The HTTP status the source attaches to each guess response
(400/400/422/404/403/200). -/
def statusOfGuess : GuessResp → Nat
  | .missingField => 400
  | .invalidGuess => 400
  | .unknownWord => 422
  | .puzzleNotFound => 404
  | .notAvailable => 403
  | .result _ _ => 200

/-- `POST /api/guess` from `src/unnamed/part_000` (lines 251-281): missing
fields, then guess shape, then word list, then puzzle lookup, then the
availability gate, then evaluation. -/
def postGuess (values : List PuzzleRec) (words : List (List Char))
    (today pid g : List Char) : GuessResp :=
  if pid.isEmpty || g.isEmpty then .missingField
  else if guessShapeOk (normGuess g) then
    if words.contains (normGuess g) then
      match values.find? (fun p => p.id == pid) with
      | none => .puzzleNotFound
      | some p =>
        if strLt today p.date then .notAvailable
        else .result (checkGuess (normGuess g) p.answer) (normGuess g == p.answer)
    else .unknownWord
  else .invalidGuess

/-- `POST /api/guess` from `src/server.js` (lines 196-222): same pipeline
without the word-list check. -/
def postGuessServer (values : List PuzzleRec) (today pid g : List Char) :
    GuessResp :=
  if pid.isEmpty || g.isEmpty then .missingField
  else if guessShapeOk (normGuess g) then
    match values.find? (fun p => p.id == pid) with
    | none => .puzzleNotFound
    | some p =>
      if strLt today p.date then .notAvailable
      else .result (checkGuessServer (normGuess g) p.answer)
          (normGuess g == p.answer)
  else .invalidGuess

/-- Responses of `POST /api/reveal`. -/
inductive RevealResp where
  | notFound
  | answer (a : List Char)
deriving DecidableEq

/-- `POST /api/reveal` (lines 312-319): lookup by id, no availability gate. -/
def postReveal (values : List PuzzleRec) (pid : List Char) : RevealResp :=
  match values.find? (fun p => p.id == pid) with
  | none => .notFound
  | some p => .answer p.answer

/-- Responses of `GET /api/puzzle/:puzzleId`; the 200 payload is the record
whose metadata fields the source serializes. -/
inductive PuzzleResp where
  | notFound
  | notAvailable
  | info (p : PuzzleRec)
deriving DecidableEq

/-- HTTP status of each puzzle response (404/403/200). -/
def statusOfPuzzle : PuzzleResp → Nat
  | .notFound => 404
  | .notAvailable => 403
  | .info _ => 200

/-- `GET /api/puzzle/:puzzleId` (lines 228-248). -/
def getPuzzle (values : List PuzzleRec) (today pid : List Char) : PuzzleResp :=
  match values.find? (fun p => p.id == pid) with
  | none => .notFound
  | some p => if strLt today p.date then .notAvailable else .info p

/-- `loadValidWords` (lines 95-117): dictionary lines trimmed, uppercased,
kept when 5 letters `A`-`Z`, then every catalog answer added. -/
def validWords (dict : List (List Char)) (values : List PuzzleRec) :
    List (List Char) :=
  (dict.map (fun l => (trimL l).map Char.toUpper)).filter
      (fun w => w.length == 5 &&
        (!w.isEmpty && w.all (fun c => 65 ≤ c.toNat && c.toNat ≤ 90)))
    ++ values.map PuzzleRec.answer

theorem find_nodup {values : List PuzzleRec} {r : PuzzleRec}
    (hmem : r ∈ values) (hnod : (values.map PuzzleRec.id).Nodup) :
    values.find? (fun p => p.id == r.id) = some r := by
  induction values with
  | nil => cases hmem
  | cons h t ih =>
    simp only [List.map_cons, List.nodup_cons] at hnod
    obtain ⟨hhead, htail⟩ := hnod
    rcases List.mem_cons.mp hmem with rfl | hmem'
    · exact List.find?_cons_of_pos _ (by simp)
    · have hne : ¬ ((h.id == r.id) = true) := by
        simp only [beq_iff_eq]
        intro hEq
        exact hhead (hEq ▸ List.mem_map_of_mem PuzzleRec.id hmem')
      have hstep : List.find? (fun p => p.id == r.id) (h :: t)
          = List.find? (fun p => p.id == r.id) t :=
        List.find?_cons_of_neg t hne
      rw [hstep]
      exact ih hmem' htail

theorem normGuess_self {w : List Char} (hall : w.all allowedChar = true)
    (hup : w.map Char.toUpper = w) : normGuess w = w := by
  unfold normGuess
  rw [hup]
  exact trimL_eq_self fun c hc => allowedChar_not_ws (List.all_eq_true.mp hall c hc)

theorem guessShapeOk_of_valid {w : List Char} (hlen : w.length = 5)
    (hall : w.all allowedChar = true) : guessShapeOk w = true := by
  have hne : w ≠ [] := by
    intro h
    rw [h] at hlen
    exact absurd hlen (by decide)
  simp [guessShapeOk, charsetOk, hlen, hall, hne]

/-- C7.  A guess whose uppercased, trimmed form fails the length/charset test
is answered with HTTP 400 by both source variants, and the response does not
depend on the catalog, the word list or the clock — no puzzle lookup
happens. -/
theorem astro_c7 :
    ∀ (values values' : List PuzzleRec) (words words' : List (List Char))
      (today today' pid g : List Char),
      guessShapeOk (normGuess g) = false →
      statusOfGuess (postGuess values words today pid g) = 400
      ∧ postGuess values words today pid g = postGuess values' words' today' pid g
      ∧ statusOfGuess (postGuessServer values today pid g) = 400
      ∧ postGuessServer values today pid g = postGuessServer values' today' pid g := by
  intro values values' words words' today today' pid g hbad
  by_cases hm : (pid.isEmpty || g.isEmpty) = true
  · simp [postGuess, postGuessServer, statusOfGuess, hm]
  · simp [postGuess, postGuessServer, statusOfGuess, hm, hbad]

/-- Witness for C7: a 7-letter guess against an unknown puzzle id is a 400. -/
theorem astro_c7_witness :
    statusOfGuess
      (postGuess [] [] "2024-01-01".toList "20240101".toList "TOOLONG".toList)
      = 400 :=
  (astro_c7 [] [] [] [] "2024-01-01".toList "2024-01-01".toList
    "20240101".toList "TOOLONG".toList (by decide)).1

/-- C4.  `POST /api/reveal` fails only with 404 on an unknown puzzle id;
a known id gets its answer back, with no availability gate — in particular
also when the puzzle's date is strictly in the future. -/
theorem astro_c4 :
    (∀ (values : List PuzzleRec) (pid : List Char),
      values.find? (fun p => p.id == pid) = none →
      postReveal values pid = .notFound)
    ∧ (∀ (values : List PuzzleRec) (r : PuzzleRec), r ∈ values →
        (values.map PuzzleRec.id).Nodup →
        postReveal values r.id = .answer r.answer)
    ∧ (∀ (values : List PuzzleRec) (r : PuzzleRec) (today : List Char),
        r ∈ values → (values.map PuzzleRec.id).Nodup →
        strLt today r.date = true →
        postReveal values r.id = .answer r.answer) := by
  refine ⟨?_, ?_, ?_⟩
  · intro values pid h
    unfold postReveal
    rw [h]
  · intro values r hmem hnod
    unfold postReveal
    rw [find_nodup hmem hnod]
  · intro values r today hmem hnod _
    unfold postReveal
    rw [find_nodup hmem hnod]

/-- A future-dated record used to witness the availability claims. -/
def demoRec : PuzzleRec :=
  ⟨"20990101".toList, "VADER".toList, "dark lord".toList, "2099-01-01".toList,
   none, none⟩

/-- Witness for C4: the answer of a puzzle dated 2099 is revealed in 2024. -/
theorem astro_c4_witness :
    postReveal [demoRec] demoRec.id = .answer demoRec.answer :=
  astro_c4.2.2 [demoRec] demoRec "2024-01-01".toList (by decide) (by decide)
    (by decide)

/-- C9.  Every loaded catalog answer is added to the accepted word set by
`loadValidWords`, so guessing a puzzle's own answer can never be rejected as
an unknown word (422) — even when the answer could not come from the
letters-only dictionary. -/
theorem astro_c9 :
    ∀ (dict : List (List Char)) (entries : List (List Char × List Char))
      (today : List Char) (r : PuzzleRec), r ∈ catalogValues entries →
      r.answer ∈ validWords dict (catalogValues entries)
      ∧ postGuess (catalogValues entries) (validWords dict (catalogValues entries))
          today r.id r.answer ≠ .unknownWord := by
  intro dict entries today r hmem
  obtain ⟨hlen, hall, hup⟩ := catalog_answer_inv hmem
  have hansmem : r.answer ∈ validWords dict (catalogValues entries) :=
    List.mem_append_right _ (List.mem_map_of_mem PuzzleRec.answer hmem)
  refine ⟨hansmem, ?_⟩
  unfold postGuess
  by_cases hm : (r.id.isEmpty || r.answer.isEmpty) = true
  · rw [if_pos hm]
    simp
  · rw [if_neg hm]
    rw [normGuess_self hall hup]
    rw [if_pos (guessShapeOk_of_valid hlen hall)]
    have hcont : (validWords dict (catalogValues entries)).contains r.answer
        = true := by
      simpa [List.contains] using hansmem
    rw [if_pos hcont]
    cases hfind : (catalogValues entries).find? (fun p => p.id == r.id) with
    | none => simp
    | some p =>
      by_cases hd : strLt today p.date = true
      · simp [hd]
      · simp [hd]

/-- Witness for C9: a digit-bearing, non-dictionary answer (`VADER` with an
empty dictionary) is accepted for its own puzzle. -/
def demoEntry : List Char × List Char :=
  ("20990101".toList, "VADER|dark lord".toList)

theorem astro_c9_witness :
    postGuess (catalogValues [demoEntry]) (validWords [] (catalogValues [demoEntry]))
        "2024-01-01".toList demoRec.id demoRec.answer ≠ .unknownWord :=
  (astro_c9 [] [demoEntry] "2024-01-01".toList demoRec (by decide)).2

/-! ## Asset resolution and memoization

`GET /api/answer-image/:puzzleId` (lines 322-386) and
`GET /api/sounds/:filename` (lines 389-446) resolve an asset through cache →
local files → remote mirror, memoizing hits and misses.  The cache is a map
from key to `some (some asset)` (positive), `some none` (the cached `null`
miss) or `none` (never resolved).  File and fetch effects are recorded in a
trace so that "no probe happened" is a statement, and the local store and
mirror are environment functions supplied per request. -/

/-- A cached `{ buffer, contentType }` value; the buffer is abstracted to a
number, its contents never being inspected by the server. -/
structure FoundAsset where
  contentType : String
  content : Nat
deriving DecidableEq

/-- The memory caches `imageCache` / `soundCache`. -/
def AssetCache : Type :=
  List Char → Option (Option FoundAsset)

/-- `cache.set(key, value)`. -/
def cacheSet (c : AssetCache) (k : List Char) (v : Option FoundAsset) :
    AssetCache :=
  fun k' => if k' = k then some v else c k'

/-- Observable side effects of one resolution. -/
inductive Act where
  | fsProbe
  | remoteFetch
deriving DecidableEq

/-- The environment of the image route: local file content by id and
extension, and the optionally configured mirror (`token && repo`), whose
`none` covers non-ok responses and transport errors alike. -/
structure ImgEnv where
  localImg : List Char → String → Option Nat
  ghConfigured : Bool
  remoteImg : List Char → String → Option Nat

/-- The candidate extensions, in source order (line 347). -/
def imgExts : List String :=
  ["png", "jpg", "gif", "webp"]

/-- The `mimeTypes` map of line 348. -/
def imgMime : String → String
  | "png" => "image/png"
  | "jpg" => "image/jpeg"
  | "gif" => "image/gif"
  | "webp" => "image/webp"
  | _ => "application/octet-stream"

/-- The local loop of lines 350-359: probe each extension, short-circuit on
the first existing file. -/
def localScanImg (env : ImgEnv) (id : List Char) :
    List String → List Act × Option FoundAsset
  | [] => ([], none)
  | ext :: rest =>
    match env.localImg id ext with
    | some b => ([Act.fsProbe], some ⟨imgMime ext, b⟩)
    | none =>
      match localScanImg env id rest with
      | (t, r) => (Act.fsProbe :: t, r)

/-- The mirror loop of lines 365-380. -/
def remoteScanImg (env : ImgEnv) (id : List Char) :
    List String → List Act × Option FoundAsset
  | [] => ([], none)
  | ext :: rest =>
    match env.remoteImg id ext with
    | some b => ([Act.remoteFetch], some ⟨imgMime ext, b⟩)
    | none =>
      match remoteScanImg env id rest with
      | (t, r) => (Act.remoteFetch :: t, r)

/-- Outcome of a resolution: the served asset or a 404 miss. -/
inductive AssetResp where
  | found (f : FoundAsset)
  | missing
deriving DecidableEq

/-- The resolution core of the image route (lines 336-385): cache, then local
files, then the mirror when configured, memoizing the result either way. -/
def resolveImage (cache : AssetCache) (env : ImgEnv) (id : List Char) :
    AssetResp × AssetCache × List Act :=
  match cache id with
  | some (some f) => (.found f, cache, [])
  | some none => (.missing, cache, [])
  | none =>
    match localScanImg env id imgExts with
    | (t, some f) => (.found f, cacheSet cache id (some f), t)
    | (t1, none) =>
      if env.ghConfigured then
        match remoteScanImg env id imgExts with
        | (t2, some f) => (.found f, cacheSet cache id (some f), t1 ++ t2)
        | (t2, none) => (.missing, cacheSet cache id none, t1 ++ t2)
      else (.missing, cacheSet cache id none, t1)

/-- Responses of the image endpoint. -/
inductive ImgResp where
  | notFound
  | notAvailable
  | found (f : FoundAsset)
  | missing
deriving DecidableEq

/-- HTTP status of each image response (404/403/200/404). -/
def statusOfImg : ImgResp → Nat
  | .notFound => 404
  | .notAvailable => 403
  | .found _ => 200
  | .missing => 404

/-- `GET /api/answer-image/:puzzleId` (lines 324-386): unknown id, then the
availability gate, then resolution. -/
def imageEndpoint (values : List PuzzleRec) (cache : AssetCache) (env : ImgEnv)
    (today pid : List Char) : ImgResp × AssetCache × List Act :=
  match values.find? (fun p => p.id == pid) with
  | none => (.notFound, cache, [])
  | some p =>
    if strLt today p.date then (.notAvailable, cache, [])
    else
      match resolveImage cache env pid with
      | (.found f, c, t) => (.found f, c, t)
      | (.missing, c, t) => (.missing, c, t)

/-- The environment of the sound route: exact-name local lookup, the
`SKIP_LOCAL_SOUNDS` flag, and the optional mirror. -/
structure SndEnv where
  localSnd : List Char → Option Nat
  skipLocal : Bool
  ghConfigured : Bool
  remoteSnd : List Char → Option Nat

/-- One character of the class `[\w\-]`: letter, digit, underscore or
hyphen. -/
def isWordChar (c : Char) : Bool :=
  c.isAlpha || c.isDigit || c == '_' || c == '-'

/-- JS `toLowerCase`, per character. -/
def lowerStr (l : List Char) : List Char :=
  l.map Char.toLower

/-- The sanitizer regex `/^[\w\-]+\.(mp3|wav|ogg)$/i` (line 395): a nonempty
word-character stem, a single dot, and a known extension case-insensitively.
Since `[\w\-]` cannot match a dot, the maximal stem is `takeWhile`. -/
def safeSoundName (f : List Char) : Bool :=
  !(f.takeWhile isWordChar).isEmpty &&
    match f.dropWhile isWordChar with
    | c :: ext =>
      c == '.' && (lowerStr ext == "mp3".toList || lowerStr ext == "wav".toList
        || lowerStr ext == "ogg".toList)
    | [] => false

/-- The `mimeTypes` map of line 409 with its `application/octet-stream`
fallback. -/
def sndMime (ext : List Char) : String :=
  if ext == "mp3".toList then "audio/mpeg"
  else if ext == "wav".toList then "audio/wav"
  else if ext == "ogg".toList then "audio/ogg"
  else "application/octet-stream"

/-- `filename.split('.').pop().toLowerCase()` (line 410). -/
def extOfSound (f : List Char) : List Char :=
  lowerStr (((splitSep '.' f).getLast?).getD [])

/-- The mirror attempt of the sound route (lines 424-441), entered after the
local step contributed the trace `tr`. -/
def soundRemote (cache : AssetCache) (env : SndEnv) (f : List Char)
    (ct : String) (tr : List Act) : AssetResp × AssetCache × List Act :=
  if env.ghConfigured then
    match env.remoteSnd f with
    | some b =>
      (.found ⟨ct, b⟩, cacheSet cache f (some ⟨ct, b⟩), tr ++ [Act.remoteFetch])
    | none => (.missing, cacheSet cache f none, tr ++ [Act.remoteFetch])
  else (.missing, cacheSet cache f none, tr)

/-- The resolution core of the sound route (lines 399-445): cache, then the
local file unless `SKIP_LOCAL_SOUNDS`, then the mirror, memoizing the
result. -/
def resolveSound (cache : AssetCache) (env : SndEnv) (f : List Char) :
    AssetResp × AssetCache × List Act :=
  match cache f with
  | some (some a) => (.found a, cache, [])
  | some none => (.missing, cache, [])
  | none =>
    if env.skipLocal then soundRemote cache env f (sndMime (extOfSound f)) []
    else
      match env.localSnd f with
      | some b =>
        (.found ⟨sndMime (extOfSound f), b⟩,
         cacheSet cache f (some ⟨sndMime (extOfSound f), b⟩), [Act.fsProbe])
      | none => soundRemote cache env f (sndMime (extOfSound f)) [Act.fsProbe]

/-- Responses of the sound endpoint. -/
inductive SndResp where
  | invalid
  | found (f : FoundAsset)
  | missing
deriving DecidableEq

/-- HTTP status of each sound response (400/200/404). -/
def statusOfSnd : SndResp → Nat
  | .invalid => 400
  | .found _ => 200
  | .missing => 404

/-- `GET /api/sounds/:filename` (lines 391-446): sanitize, then resolve. -/
def soundEndpoint (cache : AssetCache) (env : SndEnv) (f : List Char) :
    SndResp × AssetCache × List Act :=
  if safeSoundName f then
    match resolveSound cache env f with
    | (.found a, c, t) => (.found a, c, t)
    | (.missing, c, t) => (.missing, c, t)
  else (.invalid, cache, [])

theorem safeSoundName_chars {f : List Char} (h : safeSoundName f = true) :
    ∃ stem ext, f = stem ++ '.' :: ext
      ∧ (∀ c ∈ stem, isWordChar c = true)
      ∧ (ext.map Char.toLower = "mp3".toList ∨ ext.map Char.toLower = "wav".toList
          ∨ ext.map Char.toLower = "ogg".toList) := by
  unfold safeSoundName at h
  rw [Bool.and_eq_true] at h
  obtain ⟨-, hmatch⟩ := h
  cases hd : f.dropWhile isWordChar with
  | nil => rw [hd] at hmatch; exact absurd hmatch (by simp)
  | cons c ext =>
    rw [hd] at hmatch
    simp only [Bool.and_eq_true, Bool.or_eq_true, beq_iff_eq] at hmatch
    obtain ⟨rfl, hext⟩ := hmatch
    refine ⟨f.takeWhile isWordChar, ext, ?_, ?_, ?_⟩
    · rw [← hd, List.takeWhile_append_dropWhile]
    · exact fun c hc => List.mem_takeWhile_imp hc
    · simpa [lowerStr, or_assoc] using hext

theorem safe_no_slash {f : List Char} (h : safeSoundName f = true) :
    '/' ∉ f := by
  obtain ⟨stem, ext, rfl, hstem, hext⟩ := safeSoundName_chars h
  intro hmem
  rcases List.mem_append.mp hmem with hs | hrest
  · exact absurd (hstem '/' hs) (by decide)
  · rcases List.mem_cons.mp hrest with h1 | h2
    · exact absurd h1 (by decide)
    · have hmap : Char.toLower '/' ∈ ext.map Char.toLower :=
        List.mem_map_of_mem Char.toLower h2
      rcases hext with he | he | he <;> rw [he] at hmap <;>
        exact absurd hmap (by decide)

theorem safe_no_dotdot {f u w : List Char} (h : safeSoundName f = true)
    (heq : f = u ++ '.' :: '.' :: w) : False := by
  obtain ⟨stem, ext, hf, hstem, hext⟩ := safeSoundName_chars h
  have hs0 : stem.count '.' = 0 :=
    List.count_eq_zero.mpr fun hmem => absurd (hstem '.' hmem) (by decide)
  have he0 : ext.count '.' = 0 :=
    List.count_eq_zero.mpr fun hmem => by
      have hmap : Char.toLower '.' ∈ ext.map Char.toLower :=
        List.mem_map_of_mem Char.toLower hmem
      rcases hext with he | he | he <;> rw [he] at hmap <;>
        exact absurd hmap (by decide)
  have hcount1 : f.count '.' = 1 := by
    rw [hf, List.count_append, hs0, List.count_cons_self, he0]
  have hcount2 : 2 ≤ f.count '.' := by
    rw [heq, List.count_append, List.count_cons_self, List.count_cons_self]
    omega
  omega

/-- C8.  A sound filename failing the sanitizer pattern is rejected with
HTTP 400 before any cache, file-system or mirror access — the state is
untouched and the effect trace empty; and any name containing a path
separator or a `..` segment fails the pattern. -/
theorem astro_c8 :
    ∀ (cache : AssetCache) (env : SndEnv) (f : List Char),
      (safeSoundName f = false →
        soundEndpoint cache env f = (.invalid, cache, []))
      ∧ ('/' ∈ f → safeSoundName f = false)
      ∧ (∀ u w : List Char, f = u ++ '.' :: '.' :: w →
          safeSoundName f = false) := by
  intro cache env f
  refine ⟨fun h => by simp [soundEndpoint, h], ?_, ?_⟩
  · intro hmem
    cases hsafe : safeSoundName f
    · rfl
    · exact absurd hmem (safe_no_slash hsafe)
  · intro u w heq
    cases hsafe : safeSoundName f
    · rfl
    · exact absurd (safe_no_dotdot hsafe heq) (fun x => x)

/-- Witness for C8: `../win.mp3` is rejected with an empty trace and an
unchanged cache. -/
theorem astro_c8_witness :
    soundEndpoint (fun _ => none)
        ⟨fun _ => none, false, false, fun _ => none⟩ "../win.mp3".toList
      = (.invalid, (fun _ => none), []) :=
  (astro_c8 (fun _ => none) ⟨fun _ => none, false, false, fun _ => none⟩
    "../win.mp3".toList).1 (by decide)

/-- C3.  A catalog puzzle dated strictly after the current Eastern date is
refused with 403 by `GET /api/puzzle/:id`, by `POST /api/guess` (for a
well-formed, accepted guess) and by `GET /api/answer-image/:id`; a puzzle
dated on or before it never draws a 403 from any of the three. -/
theorem astro_c3 :
    ∀ (values : List PuzzleRec) (today : List Char) (r : PuzzleRec),
      r ∈ values → (values.map PuzzleRec.id).Nodup → r.id.isEmpty = false →
      (strLt today r.date = true →
        getPuzzle values today r.id = .notAvailable
        ∧ (∀ (words : List (List Char)) (g : List Char),
            g.isEmpty = false → guessShapeOk (normGuess g) = true →
            words.contains (normGuess g) = true →
            postGuess values words today r.id g = .notAvailable)
        ∧ (∀ (cache : AssetCache) (env : ImgEnv),
            (imageEndpoint values cache env today r.id).1 = .notAvailable))
      ∧ (strLt today r.date = false →
        statusOfPuzzle (getPuzzle values today r.id) ≠ 403
        ∧ (∀ (words : List (List Char)) (g : List Char),
            g.isEmpty = false → guessShapeOk (normGuess g) = true →
            words.contains (normGuess g) = true →
            statusOfGuess (postGuess values words today r.id g) ≠ 403)
        ∧ (∀ (cache : AssetCache) (env : ImgEnv),
            statusOfImg (imageEndpoint values cache env today r.id).1 ≠ 403)) := by
  intro values today r hmem hnod hid
  have hfind := find_nodup hmem hnod
  constructor
  · intro hd
    refine ⟨?_, ?_, ?_⟩
    · unfold getPuzzle
      rw [hfind]
      simp [hd]
    · intro words g hg hshape hcont
      unfold postGuess
      rw [if_neg (show ¬ ((r.id.isEmpty || g.isEmpty) = true) by
        simp [hid, hg])]
      rw [if_pos hshape, if_pos hcont, hfind]
      simp [hd]
    · intro cache env
      unfold imageEndpoint
      rw [hfind]
      simp [hd]
  · intro hd
    refine ⟨?_, ?_, ?_⟩
    · unfold getPuzzle
      rw [hfind]
      simp [statusOfPuzzle, hd]
    · intro words g hg hshape hcont
      unfold postGuess
      rw [if_neg (show ¬ ((r.id.isEmpty || g.isEmpty) = true) by
        simp [hid, hg])]
      rw [if_pos hshape, if_pos hcont, hfind]
      simp [statusOfGuess, hd]
    · intro cache env
      unfold imageEndpoint
      rw [hfind]
      simp only [hd]
      cases hres : resolveImage cache env r.id with
      | mk resp rest =>
        obtain ⟨c, t⟩ := rest
        cases resp
        · simp [statusOfImg]
        · simp [statusOfImg]

/-- Witness for C3: the 2099 puzzle is 403-gated in 2024, for the metadata
endpoint and for a valid accepted guess. -/
theorem astro_c3_witness :
    getPuzzle [demoRec] "2024-01-01".toList demoRec.id = .notAvailable
    ∧ postGuess [demoRec] ["VADER".toList] "2024-01-01".toList demoRec.id
        "VADER".toList = .notAvailable := by
  have h := (astro_c3 [demoRec] "2024-01-01".toList demoRec (by decide)
    (by decide) (by decide)).1 (by decide)
  exact ⟨h.1, h.2.1 ["VADER".toList] "VADER".toList (by decide) (by decide)
    (by decide)⟩

/-! ## The memoization discipline (C6)

Both caches live for the whole process; each request resolves one key with
whatever file-system and mirror contents exist at that moment.  A run is a
sequence of (key, environment) resolution requests threaded through the
state. -/

theorem cacheSet_self {c : AssetCache} {k : List Char} {v : Option FoundAsset} :
    cacheSet c k v k = some v := by
  simp [cacheSet]

theorem cacheSet_other {c : AssetCache} {k0 k : List Char}
    {v : Option FoundAsset} (h : k ≠ k0) : cacheSet c k0 v k = c k := by
  simp [cacheSet, h]

theorem resolveImage_hit {cache : AssetCache} {env : ImgEnv} {id : List Char}
    {f : FoundAsset} (hc : cache id = some (some f)) :
    resolveImage cache env id = (.found f, cache, []) := by
  unfold resolveImage
  rw [hc]

theorem resolveImage_negcached {cache : AssetCache} {env : ImgEnv}
    {id : List Char} (hc : cache id = some none) :
    resolveImage cache env id = (.missing, cache, []) := by
  unfold resolveImage
  rw [hc]

theorem resolveImage_uncached {cache : AssetCache} {env : ImgEnv}
    {id : List Char} (hc : cache id = none) :
    resolveImage cache env id =
      (match localScanImg env id imgExts with
       | (t, some f) => (.found f, cacheSet cache id (some f), t)
       | (t1, none) =>
         if env.ghConfigured then
           match remoteScanImg env id imgExts with
           | (t2, some f) => (.found f, cacheSet cache id (some f), t1 ++ t2)
           | (t2, none) => (.missing, cacheSet cache id none, t1 ++ t2)
         else (.missing, cacheSet cache id none, t1)) := by
  unfold resolveImage
  rw [hc]

theorem resolveImage_mono {cache : AssetCache} {env : ImgEnv}
    {id k : List Char} {v : Option FoundAsset} (h : cache k = some v) :
    (resolveImage cache env id).2.1 k = some v := by
  cases hc : cache id with
  | some ov =>
    cases ov with
    | some f => rw [resolveImage_hit hc]; exact h
    | none => rw [resolveImage_negcached hc]; exact h
  | none =>
    have hne : k ≠ id := fun hEq => by rw [hEq, hc] at h; cases h
    rw [resolveImage_uncached hc]
    rcases hl : localScanImg env id imgExts with ⟨t, or⟩
    cases or with
    | some f => simp [cacheSet_other hne, h]
    | none =>
      cases hg : env.ghConfigured
      · simp [hg, cacheSet_other hne, h]
      · rcases hr : remoteScanImg env id imgExts with ⟨t2, or2⟩
        cases or2 with
        | some f => simp [hg, hr, cacheSet_other hne, h]
        | none => simp [hg, hr, cacheSet_other hne, h]

theorem resolveSound_hit {cache : AssetCache} {env : SndEnv} {f : List Char}
    {a : FoundAsset} (hc : cache f = some (some a)) :
    resolveSound cache env f = (.found a, cache, []) := by
  unfold resolveSound
  rw [hc]

theorem resolveSound_negcached {cache : AssetCache} {env : SndEnv}
    {f : List Char} (hc : cache f = some none) :
    resolveSound cache env f = (.missing, cache, []) := by
  unfold resolveSound
  rw [hc]

theorem resolveSound_uncached {cache : AssetCache} {env : SndEnv}
    {f : List Char} (hc : cache f = none) :
    resolveSound cache env f =
      (if env.skipLocal then soundRemote cache env f (sndMime (extOfSound f)) []
       else
         match env.localSnd f with
         | some b =>
           (.found ⟨sndMime (extOfSound f), b⟩,
            cacheSet cache f (some ⟨sndMime (extOfSound f), b⟩), [Act.fsProbe])
         | none => soundRemote cache env f (sndMime (extOfSound f)) [Act.fsProbe]) := by
  unfold resolveSound
  rw [hc]

theorem soundRemote_mono {cache : AssetCache} {env : SndEnv}
    {f k : List Char} {ct : String} {tr : List Act} {v : Option FoundAsset}
    (h : cache k = some v) (hne : k ≠ f) :
    (soundRemote cache env f ct tr).2.1 k = some v := by
  unfold soundRemote
  cases hg : env.ghConfigured
  · simp [cacheSet_other hne, h]
  · cases hr : env.remoteSnd f with
    | some b => simp [cacheSet_other hne, h]
    | none => simp [cacheSet_other hne, h]

theorem resolveSound_mono {cache : AssetCache} {env : SndEnv}
    {f k : List Char} {v : Option FoundAsset} (h : cache k = some v) :
    (resolveSound cache env f).2.1 k = some v := by
  cases hc : cache f with
  | some ov =>
    cases ov with
    | some a => rw [resolveSound_hit hc]; exact h
    | none => rw [resolveSound_negcached hc]; exact h
  | none =>
    have hne : k ≠ f := fun hEq => by rw [hEq, hc] at h; cases h
    rw [resolveSound_uncached hc]
    cases hs : env.skipLocal
    · cases hb : env.localSnd f with
      | some b => simp [cacheSet_other hne, h]
      | none => simp [soundRemote_mono h hne]
    · simp [soundRemote_mono h hne]

theorem localScanImg_no_remote (env : ImgEnv) (id : List Char) :
    ∀ exts : List String, Act.remoteFetch ∉ (localScanImg env id exts).1 := by
  intro exts
  induction exts with
  | nil => simp [localScanImg]
  | cons ext rest ih =>
    cases hl : env.localImg id ext with
    | some b => simp [localScanImg, hl]
    | none =>
      rcases hr : localScanImg env id rest with ⟨t, r⟩
      rw [hr] at ih
      simp only [localScanImg, hl, hr]
      intro hmem
      rcases List.mem_cons.mp hmem with h1 | h2
      · exact absurd h1 (by decide)
      · exact ih h2

theorem resolveImage_local_est {cache : AssetCache} {env : ImgEnv}
    {id : List Char} (hc : cache id = none)
    (hl : (localScanImg env id imgExts).2.isSome = true) :
    (∃ a, (resolveImage cache env id).2.1 id = some (some a))
    ∧ Act.remoteFetch ∉ (resolveImage cache env id).2.2 := by
  rw [resolveImage_uncached hc]
  rcases hsc : localScanImg env id imgExts with ⟨t, or⟩
  cases or with
  | none => rw [hsc] at hl; simp at hl
  | some f =>
    constructor
    · exact ⟨f, by simp [cacheSet_self]⟩
    · have hnr := localScanImg_no_remote env id imgExts
      rw [hsc] at hnr
      simpa using hnr

theorem resolveImage_missing_est {cache : AssetCache} {env : ImgEnv}
    {id : List Char} (hc : cache id = none)
    (hm : (resolveImage cache env id).1 = .missing) :
    (resolveImage cache env id).2.1 id = some none := by
  rw [resolveImage_uncached hc] at hm ⊢
  rcases hsc : localScanImg env id imgExts with ⟨t, or⟩
  rw [hsc] at hm
  cases or with
  | some f =>
    exact absurd (show AssetResp.found f = AssetResp.missing from hm) (by simp)
  | none =>
    cases hg : env.ghConfigured
    · exact cacheSet_self
    · rw [hg] at hm
      rcases hr : remoteScanImg env id imgExts with ⟨t2, or2⟩
      rw [hr] at hm
      cases or2 with
      | some f =>
        exact absurd (show AssetResp.found f = AssetResp.missing from hm)
          (by simp)
      | none => exact cacheSet_self

theorem soundRemote_missing {cache : AssetCache} {env : SndEnv}
    {f : List Char} {ct : String} {tr : List Act} :
    (soundRemote cache env f ct tr).2.1 f = some none
    ∨ ∃ a, (soundRemote cache env f ct tr).1 = .found a := by
  unfold soundRemote
  cases hg : env.ghConfigured
  · simp [cacheSet_self]
  · cases hr : env.remoteSnd f with
    | some b =>
      right
      refine ⟨⟨ct, b⟩, ?_⟩
      simp
    | none => simp [cacheSet_self]

theorem resolveSound_local_est {cache : AssetCache} {env : SndEnv}
    {f : List Char} (hc : cache f = none) (hskip : env.skipLocal = false)
    (hloc : (env.localSnd f).isSome = true) :
    (∃ a, (resolveSound cache env f).2.1 f = some (some a))
    ∧ Act.remoteFetch ∉ (resolveSound cache env f).2.2 := by
  rw [resolveSound_uncached hc, hskip]
  cases hb : env.localSnd f with
  | none => rw [hb] at hloc; simp at hloc
  | some b =>
    constructor
    · refine ⟨⟨sndMime (extOfSound f), b⟩, ?_⟩
      simp [cacheSet_self]
    · simp

theorem resolveSound_missing_est {cache : AssetCache} {env : SndEnv}
    {f : List Char} (hc : cache f = none)
    (hm : (resolveSound cache env f).1 = .missing) :
    (resolveSound cache env f).2.1 f = some none := by
  rw [resolveSound_uncached hc] at hm ⊢
  cases hskip : env.skipLocal
  · rw [hskip] at hm
    cases hb : env.localSnd f with
    | some b =>
      rw [hb] at hm
      exact absurd
        (show AssetResp.found ⟨sndMime (extOfSound f), b⟩ = AssetResp.missing
          from hm) (by simp)
    | none =>
      rw [hb] at hm
      rcases @soundRemote_missing cache env f (sndMime (extOfSound f))
        [Act.fsProbe] with hres | ⟨a, ha⟩
      · exact hres
      · have hm' : (soundRemote cache env f (sndMime (extOfSound f))
            [Act.fsProbe]).1 = AssetResp.missing := hm
        rw [ha] at hm'
        exact absurd hm' (by simp)
  · rw [hskip] at hm
    rcases @soundRemote_missing cache env f (sndMime (extOfSound f))
      [] with hres | ⟨a, ha⟩
    · exact hres
    · have hm' : (soundRemote cache env f (sndMime (extOfSound f))
          []).1 = AssetResp.missing := hm
      rw [ha] at hm'
      exact absurd hm' (by simp)

/-- A logical asset key: an answer-image puzzle id or a sound filename. -/
inductive AKey where
  | imgK (id : List Char)
  | sndK (f : List Char)
deriving DecidableEq

/-- The environment a single resolution runs against (local stores, mirror
configuration); it may differ between requests. -/
structure AEnv where
  img : ImgEnv
  snd : SndEnv

/-- The process-wide state: both memoization caches. -/
structure SysState where
  imgCache : AssetCache
  sndCache : AssetCache

/-- The cache entry of a key in the state. -/
def sysCacheAt (s : SysState) : AKey → Option (Option FoundAsset)
  | .imgK id => s.imgCache id
  | .sndK f => s.sndCache f

/-- One resolution request: run the matching resolver, thread its cache. -/
def stepA (s : SysState) (e : AEnv) : AKey → SysState × AssetResp × List Act
  | .imgK id =>
    (⟨(resolveImage s.imgCache e.img id).2.1, s.sndCache⟩,
     (resolveImage s.imgCache e.img id).1,
     (resolveImage s.imgCache e.img id).2.2)
  | .sndK f =>
    (⟨s.imgCache, (resolveSound s.sndCache e.snd f).2.1⟩,
     (resolveSound s.sndCache e.snd f).1,
     (resolveSound s.sndCache e.snd f).2.2)

/-- Run a sequence of resolution requests, recording each one's trace. -/
def runTraces : SysState → List (AKey × AEnv) → List (AKey × List Act)
  | _, [] => []
  | s, (k, e) :: rest =>
    (k, (stepA s e k).2.2) :: runTraces (stepA s e k).1 rest

/-- "The resolution succeeds from local storage": some candidate exists in
the local store (and, for sounds, the skip flag is off). -/
def localSucceeds : AKey → AEnv → Prop
  | .imgK id, e => (localScanImg e.img id imgExts).2.isSome = true
  | .sndK f, e => e.snd.skipLocal = false ∧ (e.snd.localSnd f).isSome = true

theorem stepA_mono {s : SysState} {e : AEnv} {k' k : AKey}
    {v : Option FoundAsset} (h : sysCacheAt s k = some v) :
    sysCacheAt (stepA s e k').1 k = some v := by
  cases k' with
  | imgK id =>
    cases k with
    | imgK j => exact resolveImage_mono h
    | sndK f => exact h
  | sndK f' =>
    cases k with
    | imgK j => exact h
    | sndK f => exact resolveSound_mono h

theorem stepA_hit {s : SysState} {e : AEnv} {k : AKey} {v : Option FoundAsset}
    (h : sysCacheAt s k = some v) :
    (stepA s e k).1 = s ∧ (stepA s e k).2.2 = [] := by
  obtain ⟨ic, sc⟩ := s
  cases k with
  | imgK id =>
    have hr : (resolveImage ic e.img id).2.1 = ic ∧
        (resolveImage ic e.img id).2.2 = [] := by
      cases v with
      | some f =>
        rw [@resolveImage_hit ic e.img id f (show ic id = some (some f) from h)]
        exact ⟨rfl, rfl⟩
      | none =>
        rw [@resolveImage_negcached ic e.img id (show ic id = some none from h)]
        exact ⟨rfl, rfl⟩
    refine ⟨?_, hr.2⟩
    show (⟨(resolveImage ic e.img id).2.1, sc⟩ : SysState) = ⟨ic, sc⟩
    rw [hr.1]
  | sndK f =>
    have hr : (resolveSound sc e.snd f).2.1 = sc ∧
        (resolveSound sc e.snd f).2.2 = [] := by
      cases v with
      | some a =>
        rw [@resolveSound_hit sc e.snd f a (show sc f = some (some a) from h)]
        exact ⟨rfl, rfl⟩
      | none =>
        rw [@resolveSound_negcached sc e.snd f (show sc f = some none from h)]
        exact ⟨rfl, rfl⟩
    refine ⟨?_, hr.2⟩
    show (⟨ic, (resolveSound sc e.snd f).2.1⟩ : SysState) = ⟨ic, sc⟩
    rw [hr.1]

theorem runTraces_silent {k : AKey} {v : Option FoundAsset} :
    ∀ (seq : List (AKey × AEnv)) (s : SysState),
      sysCacheAt s k = some v →
      ∀ pr ∈ runTraces s seq, pr.1 = k → pr.2 = [] := by
  intro seq
  induction seq with
  | nil => intro s _ pr hpr; cases hpr
  | cons he rest ih =>
    obtain ⟨k', e⟩ := he
    intro s h pr hpr hk
    rcases List.mem_cons.mp hpr with rfl | hpr'
    · simp only at hk
      subst hk
      exact (stepA_hit h).2
    · exact ih ((stepA s e k').1) (stepA_mono h) pr hpr' hk

theorem stepA_local_est {s : SysState} {e : AEnv} {k : AKey}
    (hc : sysCacheAt s k = none) (hl : localSucceeds k e) :
    (∃ a, sysCacheAt (stepA s e k).1 k = some (some a))
    ∧ Act.remoteFetch ∉ (stepA s e k).2.2 := by
  cases k with
  | imgK id => exact resolveImage_local_est hc hl
  | sndK f =>
    obtain ⟨h1, h2⟩ := hl
    exact resolveSound_local_est hc h1 h2

theorem stepA_missing_est {s : SysState} {e : AEnv} {k : AKey}
    (hc : sysCacheAt s k = none) (hm : (stepA s e k).2.1 = .missing) :
    sysCacheAt (stepA s e k).1 k = some none := by
  cases k with
  | imgK id => exact resolveImage_missing_est hc hm
  | sndK f => exact resolveSound_missing_est hc hm

/-- C6.  Starting from an unresolved key: if the first resolution succeeds
from local storage it performs no remote fetch, memoizes a positive entry,
and every later resolution of that key in any subsequent run has an empty
effect trace (no local probe, no remote fetch); if the first resolution
exhausts all candidates it memoizes `NotFound` (the cached `null`) and every
later resolution of that key likewise touches neither store again. -/
theorem astro_c6 :
    ∀ (s : SysState) (e : AEnv) (k : AKey) (seq : List (AKey × AEnv)),
      sysCacheAt s k = none →
      (localSucceeds k e →
        Act.remoteFetch ∉ (stepA s e k).2.2
        ∧ (∃ a, sysCacheAt (stepA s e k).1 k = some (some a))
        ∧ ∀ pr ∈ runTraces (stepA s e k).1 seq, pr.1 = k → pr.2 = [])
      ∧ ((stepA s e k).2.1 = .missing →
        sysCacheAt (stepA s e k).1 k = some none
        ∧ ∀ pr ∈ runTraces (stepA s e k).1 seq, pr.1 = k → pr.2 = []) := by
  intro s e k seq hnone
  constructor
  · intro hloc
    obtain ⟨⟨a, hca⟩, hnorem⟩ := stepA_local_est hnone hloc
    exact ⟨hnorem, ⟨a, hca⟩, runTraces_silent seq _ hca⟩
  · intro hmiss
    have hca := stepA_missing_est hnone hmiss
    exact ⟨hca, runTraces_silent seq _ hca⟩

/-- Empty caches, as at process start. -/
def demoSys : SysState :=
  ⟨fun _ => none, fun _ => none⟩

/-- An environment whose local stores hold every image but no sound, with no
mirror configured. -/
def demoAEnv : AEnv :=
  ⟨⟨fun _ _ => some 7, false, fun _ _ => none⟩,
   ⟨fun _ => none, false, false, fun _ => none⟩⟩

/-- Witness for C6: a locally served image is fetched without the mirror and
its key stays silent for the rest of the run; an absent sound is negatively
memoized. -/
theorem astro_c6_witness :
    Act.remoteFetch ∉ (stepA demoSys demoAEnv (.imgK "20240101".toList)).2.2
    ∧ sysCacheAt (stepA demoSys demoAEnv (.sndK "win.mp3".toList)).1
        (.sndK "win.mp3".toList) = some none := by
  constructor
  · exact ((astro_c6 demoSys demoAEnv (.imgK "20240101".toList)
      [(.imgK "20240101".toList, demoAEnv)] rfl).1 rfl).1
  · exact ((astro_c6 demoSys demoAEnv (.sndK "win.mp3".toList) [] rfl).2
      rfl).1
